import Mathlib

/-!
Verification of the vinylla timecode library (shallow embedding).

The definitions below are translated from the Rust sources:
`src/bits.rs`, `src/lfsr.rs`, `src/bitstream.rs`, `src/util.rs`,
`src/timecode.rs`, `src/pitch.rs`, `src/format.rs`.

Modelling conventions:
* `u32` values are modelled as `Nat`.  All shift/or/and operations are the
  corresponding `Nat` bitwise operations; wherever a `u32` operation could
  wrap, the wrap is either written explicitly or is provably invisible
  (see the comments on the individual definitions).
* `i32`/`i16` values are modelled as `Int`.  The claims proved here only
  exercise values far inside the 32-bit range, so two's-complement wrapping
  is not modelled.
* `f64` values are modelled as `ℚ` (exact rational arithmetic); a cast
  `as i32` is truncation toward zero with saturation, as in Rust.
  In the pitch detector, where an IEEE division can produce a non-finite
  value, f64 values are modelled as `Option ℚ` with `none` standing for a
  non-finite result (NaN/±∞), which propagates through later arithmetic.
-/

/-! ## bits.rs -/

/-- Source `bits::mask`: `(1 << size) - 1`. -/
def vmask (size : Nat) : Nat := (1 <<< size) - 1

/-- Source `bits::insert_msb`: `let bit = bit & 1; (bit << (size - 1)) | (data >> 1)`.
For a `u32` operand the left shift cannot discard bits: the shift amount
`size - 1` must be `≤ 31` for the Rust code to execute at all, and
`(bit & 1) << (size-1) < 2^32`, so the `Nat` form coincides with `u32`
arithmetic on all executable inputs. -/
def insert_msb (size data bit : Nat) : Nat :=
  ((bit &&& 1) <<< (size - 1)) ||| (data >>> 1)

/-- Source `bits::insert_lsb`: `(data << 1) & mask(size) | bit` (with `bit & 1`).
In `u32` arithmetic `data << 1` wraps modulo `2^32`; the result is then
masked to the low `size ≤ 31` bits, so the wrap is invisible and the plain
`Nat` form coincides with the `u32` computation on all executable inputs. -/
def insert_lsb (size data bit : Nat) : Nat :=
  ((data <<< 1) &&& vmask size) ||| (bit &&& 1)

/-- Source `bits::rotate_right`: `let lsb = data & 1; insert_msb(size, data, lsb)`. -/
def vrotate_right (size data : Nat) : Nat := insert_msb size data (data &&& 1)

/-- `u32::count_ones`, i.e. the population count of a natural number.
Implemented with structural fuel so that it reduces in the kernel. -/
def popCountAux : Nat → Nat → Nat
  | 0, _ => 0
  | fuel + 1, n => if n = 0 then 0 else n % 2 + popCountAux fuel (n / 2)

/-- Population count (`count_ones`). -/
def popCount (n : Nat) : Nat := popCountAux n n

/-! ## lfsr.rs -/

/-- Source `FibonacciLfsr::next_state`:
`let next_bit = (self.state & self.taps).count_ones() & 1; insert_msb(size, state, next_bit)`. -/
def lfsrNext (size taps state : Nat) : Nat :=
  insert_msb size state (popCount (state &&& taps) &&& 1)

/-- Source `FibonacciLfsr::previous_state`:
`let taps = rotate_right(size, taps); let previous_bit = (state & taps).count_ones() & 1;
insert_lsb(size, state, previous_bit)`. -/
def lfsrPrev (size taps state : Nat) : Nat :=
  insert_lsb size state (popCount (state &&& vrotate_right size taps) &&& 1)

example : lfsrNext 5 0b00101 0b10101 = 0b01010 := by decide
example : lfsrNext 5 0b00101 0b01010 = 0b00101 := by decide
example : lfsrPrev 5 0b00101 0b10101 = 0b01011 := by decide
example : lfsrPrev 5 0b00101 0b01011 = 0b10111 := by decide
example : lfsrNext 2 0b11 1 = 2 ∧ lfsrNext 2 0b11 2 = 3 ∧ lfsrNext 2 0b11 3 = 1 := by decide

/-! ## Arithmetic toolkit for the bit-level proofs -/

theorem popCountAux_congr : ∀ f1 f2 n : Nat, n ≤ f1 → n ≤ f2 →
    popCountAux f1 n = popCountAux f2 n := by
  intro f1
  induction f1 with
  | zero =>
    intro f2 n h1 _
    have hn : n = 0 := Nat.le_zero.mp h1
    subst hn
    cases f2 with
    | zero => rfl
    | succ f2 => simp [popCountAux]
  | succ f1 ih =>
    intro f2 n h1 h2
    cases Nat.eq_zero_or_pos n with
    | inl hz =>
      subst hz
      cases f2 with
      | zero => rfl
      | succ f2 => simp [popCountAux]
    | inr hpos =>
      cases f2 with
      | zero => omega
      | succ f2 =>
        have hne : n ≠ 0 := Nat.pos_iff_ne_zero.mp hpos
        simp only [popCountAux, hne, if_false]
        have hdiv : n / 2 < n := Nat.div_lt_self hpos (by omega)
        rw [ih f2 (n / 2) (by omega) (by omega)]

theorem popCountAux_pos (f n : Nat) (hf : 0 < f) (hn : 0 < n) :
    popCountAux f n = n % 2 + popCountAux (f - 1) (n / 2) := by
  cases f with
  | zero => omega
  | succ f => simp [popCountAux, Nat.pos_iff_ne_zero.mp hn]

theorem popCount_two_mul_add (n b : Nat) (hb : b < 2) :
    popCount (2 * n + b) = popCount n + b := by
  cases Nat.eq_zero_or_pos (2 * n + b) with
  | inl hz =>
    have hn : n = 0 := by omega
    have hb0 : b = 0 := by omega
    subst hn; subst hb0; rfl
  | inr hpos =>
    unfold popCount
    rw [popCountAux_pos _ _ hpos hpos]
    have hmod : (2 * n + b) % 2 = b := by omega
    have hdiv : (2 * n + b) / 2 = n := by omega
    rw [hmod, hdiv]
    have : popCountAux (2 * n + b - 1) n = popCountAux n n := by
      apply popCountAux_congr <;> omega
    rw [this]
    omega

theorem popCount_lt_two (b : Nat) (hb : b < 2) : popCount b = b := by
  interval_cases b <;> rfl

theorem popCount_mul_pow_add (k a r : Nat) (hr : r < 2 ^ k) :
    popCount (a * 2 ^ k + r) = popCount a + popCount r := by
  induction k generalizing r with
  | zero =>
    have : r = 0 := by omega
    subst this
    simp
    rfl
  | succ k ih =>
    have hsplit : a * 2 ^ (k + 1) + r = 2 * (a * 2 ^ k + r / 2) + r % 2 := by
      have := Nat.div_add_mod r 2
      ring_nf
      omega
    rw [hsplit, popCount_two_mul_add _ _ (Nat.mod_lt _ (by omega)),
      ih (r / 2) (by omega)]
    have hr2 : popCount r = popCount (r / 2) + r % 2 := by
      conv_lhs => rw [show r = 2 * (r / 2) + r % 2 by omega]
      exact popCount_two_mul_add _ _ (Nat.mod_lt _ (by omega))
    omega

theorem testBit_mul_pow_add (k a r i : Nat) (hr : r < 2 ^ k) :
    (a * 2 ^ k + r).testBit i =
      if i < k then r.testBit i else a.testBit (i - k) := by
  rcases Nat.lt_or_ge i k with hik | hik
  · simp only [hik, if_true]
    rw [Nat.testBit_to_div_mod, Nat.testBit_to_div_mod]
    have hk : 2 ^ k = 2 ^ i * 2 ^ (k - i) := by
      rw [← Nat.pow_add]
      congr 1
      omega
    have hsplit : a * 2 ^ k + r = 2 ^ i * (a * 2 ^ (k - i)) + r := by
      rw [hk]; ring
    rw [hsplit, Nat.mul_add_div (Nat.pos_pow_of_pos i (by omega))]
    have heven : a * 2 ^ (k - i) = 2 * (a * 2 ^ (k - i - 1)) := by
      have : 2 ^ (k - i) = 2 * 2 ^ (k - i - 1) := by
        rw [← Nat.pow_succ']
        congr 1
        omega
      rw [this]; ring
    rw [heven]
    have hmm : (2 * (a * 2 ^ (k - i - 1)) + r / 2 ^ i) % 2 = r / 2 ^ i % 2 := by
      omega
    rw [hmm]
  · simp only [Nat.not_lt_of_ge hik, if_false]
    rw [Nat.testBit_to_div_mod, Nat.testBit_to_div_mod]
    have hi : 2 ^ i = 2 ^ k * 2 ^ (i - k) := by
      rw [← Nat.pow_add]
      congr 1
      omega
    rw [hi, ← Nat.div_div_eq_div_mul]
    have : (a * 2 ^ k + r) / 2 ^ k = a := by
      rw [Nat.mul_comm a (2 ^ k), Nat.mul_add_div (Nat.pos_pow_of_pos k (by omega)),
        Nat.div_eq_of_lt hr]
      omega
    rw [this]

theorem land_split (k a b r s : Nat) (hr : r < 2 ^ k) (hs : s < 2 ^ k) :
    (a * 2 ^ k + r) &&& (b * 2 ^ k + s) = (a &&& b) * 2 ^ k + (r &&& s) := by
  have hrs : r &&& s < 2 ^ k := Nat.lt_of_le_of_lt Nat.and_le_left hr
  apply Nat.eq_of_testBit_eq
  intro i
  rw [Nat.testBit_land, testBit_mul_pow_add k a r i hr,
    testBit_mul_pow_add k b s i hs, testBit_mul_pow_add k (a &&& b) (r &&& s) i hrs]
  rcases Nat.lt_or_ge i k with hik | hik
  · simp [hik, Nat.testBit_land]
  · simp [Nat.not_lt_of_ge hik, Nat.testBit_land]

theorem lor_mul_pow_add (k a r : Nat) (hr : r < 2 ^ k) :
    (a * 2 ^ k) ||| r = a * 2 ^ k + r := by
  apply Nat.eq_of_testBit_eq
  intro i
  rw [Nat.testBit_lor]
  have h0 : (a * 2 ^ k + 0).testBit i = if i < k then Nat.testBit 0 i else a.testBit (i - k) :=
    testBit_mul_pow_add k a 0 i (Nat.pos_pow_of_pos k (by omega))
  rw [Nat.add_zero] at h0
  rw [h0, testBit_mul_pow_add k a r i hr]
  rcases Nat.lt_or_ge i k with hik | hik
  · simp [hik]
  · have hri : r.testBit i = false :=
      Nat.testBit_lt_two_pow (Nat.lt_of_lt_of_le hr (Nat.pow_le_pow_right (by omega) hik))
    simp [Nat.not_lt_of_ge hik, hri]

theorem insert_msb_eq (N s b : Nat) (hN : 1 ≤ N) (hs : s < 2 ^ N) (hb : b < 2) :
    insert_msb N s b = b * 2 ^ (N - 1) + s / 2 := by
  unfold insert_msb
  have hb1 : b &&& 1 = b := by
    rw [Nat.and_one_is_mod]
    omega
  have hdiv : s / 2 < 2 ^ (N - 1) := by
    have h2 : 2 ^ N = 2 * 2 ^ (N - 1) := by
      rw [← Nat.pow_succ']
      congr 1
      omega
    omega
  rw [hb1, Nat.shiftLeft_eq, Nat.shiftRight_eq_div_pow, Nat.pow_one,
    lor_mul_pow_add (N - 1) b (s / 2) hdiv]

theorem insert_lsb_eq (N s b : Nat) (hN : 1 ≤ N) (hb : b < 2) :
    insert_lsb N s b = 2 * (s % 2 ^ (N - 1)) + b := by
  unfold insert_lsb vmask
  have hb1 : b &&& 1 = b := by
    rw [Nat.and_one_is_mod]
    omega
  have hpow : (1 : Nat) <<< N = 2 ^ N := by
    rw [Nat.shiftLeft_eq, Nat.one_mul]
  rw [hb1, hpow, Nat.shiftLeft_eq, Nat.pow_one, Nat.and_pow_two_sub_one_eq_mod]
  have hsplit : 2 ^ N = 2 ^ (N - 1) * 2 := by
    rw [← Nat.pow_succ]
    congr 1
    omega
  have hmod : s * 2 % 2 ^ N = s % 2 ^ (N - 1) * 2 := by
    rw [hsplit, Nat.mul_mod_mul_right]
  rw [hmod]
  have h1 : s % 2 ^ (N - 1) * 2 = s % 2 ^ (N - 1) * 2 ^ 1 := by
    rw [Nat.pow_one]
  rw [h1, lor_mul_pow_add 1 (s % 2 ^ (N - 1)) b (by omega)]
  ring

theorem next_bit_split (s t : Nat) (ht : t % 2 = 1) :
    popCount (s &&& t) % 2 = (popCount (s / 2 &&& t / 2) + s % 2) % 2 := by
  have hsplit : s &&& t = (s / 2) * 2 ^ 1 + s % 2 &&& ((t / 2) * 2 ^ 1 + 1) := by
    congr 1 <;> omega
  have h1 : (s / 2) * 2 ^ 1 + s % 2 &&& ((t / 2) * 2 ^ 1 + 1) =
      (s / 2 &&& t / 2) * 2 ^ 1 + (s % 2 &&& 1) := by
    exact land_split 1 (s / 2) (t / 2) (s % 2) 1 (by omega) (by omega)
  have h2 : s % 2 &&& 1 = s % 2 := by
    rw [Nat.and_one_is_mod]
    omega
  rw [hsplit, h1, h2, Nat.pow_one, Nat.mul_comm,
    popCount_two_mul_add _ _ (Nat.mod_lt _ (by omega))]

theorem lfsrNext_lt (size taps s : Nat) (hN : 1 ≤ size) (hs : s < 2 ^ size) :
    lfsrNext size taps s < 2 ^ size := by
  unfold lfsrNext
  have hb : popCount (s &&& taps) &&& 1 < 2 := by
    rw [Nat.and_one_is_mod]
    omega
  rw [insert_msb_eq size s _ hN hs hb]
  have h2 : 2 ^ size = 2 * 2 ^ (size - 1) := by
    rw [← Nat.pow_succ']
    congr 1
    omega
  have hle : popCount (s &&& taps) &&& 1 ≤ 1 := by omega
  have hd : s / 2 < 2 ^ (size - 1) := by omega
  have hmul : (popCount (s &&& taps) &&& 1) * 2 ^ (size - 1) ≤ 1 * 2 ^ (size - 1) :=
    Nat.mul_le_mul_right _ hle
  omega

/-- The tap set is a bit mask for a `size`-bit register (`taps < 2^size`) and,
from every nonzero `size`-bit state, advancing the register `2^size - 1` times
returns to that state while no smaller positive number of steps does:
the LFSR sequence is maximum-length. -/
def IsMaxLength (size taps : Nat) : Prop :=
  taps < 2 ^ size ∧
  ∀ s, s < 2 ^ size → 0 < s →
    (lfsrNext size taps)^[2 ^ size - 1] s = s ∧
    ∀ k, k < 2 ^ size - 1 → 0 < k → (lfsrNext size taps)^[k] s ≠ s

instance (size taps : Nat) : Decidable (IsMaxLength size taps) := by
  unfold IsMaxLength
  infer_instance

theorem lfsrNext_zero (size taps : Nat) : lfsrNext size taps 0 = 0 := by
  show insert_msb size 0 (popCount (0 &&& taps) &&& 1) = 0
  rw [Nat.zero_and]
  show insert_msb size 0 0 = 0
  unfold insert_msb
  simp

theorem maxLength_taps_odd (size taps : Nat) (hml : IsMaxLength size taps)
    (hN : 1 ≤ size) : taps % 2 = 1 := by
  by_contra hodd
  have ht0 : taps % 2 = 0 := by omega
  have h1 : lfsrNext size taps 1 = 0 := by
    show insert_msb size 1 (popCount (1 &&& taps) &&& 1) = 0
    have : (1 : Nat) &&& taps = 0 := by
      rw [Nat.and_comm, Nat.and_one_is_mod, ht0]
    rw [this]
    show insert_msb size 1 0 = 0
    unfold insert_msb
    simp
  have hiter : ∀ n, 0 < n → (lfsrNext size taps)^[n] 1 = 0 := by
    intro n hn
    cases n with
    | zero => omega
    | succ m =>
      rw [Function.iterate_succ_apply, h1]
      exact Function.iterate_fixed (lfsrNext_zero size taps) m
  have hone : (1 : Nat) < 2 ^ size := by
    have : (2 : Nat) ^ 1 ≤ 2 ^ size := Nat.pow_le_pow_right (by omega) hN
    omega
  have := (hml.2 1 hone (by omega)).1
  rw [hiter (2 ^ size - 1) (by omega)] at this
  omega

theorem lfsrPrev_lfsrNext (size taps s : Nat) (hN : 1 ≤ size) (ht : taps % 2 = 1)
    (htlt : taps < 2 ^ size) (hs : s < 2 ^ size) :
    lfsrPrev size taps (lfsrNext size taps s) = s := by
  have h2 : 2 ^ size = 2 * 2 ^ (size - 1) := by
    rw [← Nat.pow_succ']
    congr 1
    omega
  have hsH : s / 2 < 2 ^ (size - 1) := by omega
  have htH : taps / 2 < 2 ^ (size - 1) := by omega
  set b := popCount (s &&& taps) &&& 1 with hbdef
  have hb2 : b < 2 := by
    rw [hbdef, Nat.and_one_is_mod]
    omega
  have hbmod : b = popCount (s &&& taps) % 2 := by
    rw [hbdef, Nat.and_one_is_mod]
  have hnx : lfsrNext size taps s = b * 2 ^ (size - 1) + s / 2 :=
    insert_msb_eq size s b hN hs hb2
  -- the rotated tap mask
  have htaps2 : vrotate_right size taps = 1 * 2 ^ (size - 1) + taps / 2 := by
    unfold vrotate_right
    have h1 : taps &&& 1 = 1 := by
      rw [Nat.and_one_is_mod, ht]
    rw [h1, insert_msb_eq size taps 1 hN htlt (by omega)]
  -- the recovered bit is the low bit of s
  have hpb : popCount (lfsrNext size taps s &&& vrotate_right size taps) &&& 1 = s % 2 := by
    rw [Nat.and_one_is_mod, hnx, htaps2,
      land_split (size - 1) b 1 (s / 2) (taps / 2) hsH htH,
      popCount_mul_pow_add (size - 1) (b &&& 1) _
        (Nat.lt_of_le_of_lt Nat.and_le_left hsH)]
    have hb1 : b &&& 1 = b := by
      rw [Nat.and_one_is_mod]
      omega
    rw [hb1, popCount_lt_two b hb2]
    have hsplit := next_bit_split s taps ht
    rw [← hbmod] at hsplit
    omega
  unfold lfsrPrev
  rw [hpb]
  have hpb2 : s % 2 &&& 1 = s % 2 := by
    rw [Nat.and_one_is_mod]
    omega
  have hlsb := insert_lsb_eq size (lfsrNext size taps s) (s % 2) hN (by omega)
  rw [hlsb, hnx]
  have hmm : (b * 2 ^ (size - 1) + s / 2) % 2 ^ (size - 1) = s / 2 := by
    rw [Nat.mul_comm, Nat.mul_add_mod, Nat.mod_eq_of_lt hsH]
  rw [hmm]
  omega

theorem lfsrNext_lfsrPrev (size taps s : Nat) (hN : 1 ≤ size) (ht : taps % 2 = 1)
    (htlt : taps < 2 ^ size) (hs : s < 2 ^ size) :
    lfsrNext size taps (lfsrPrev size taps s) = s := by
  have h2 : 2 ^ size = 2 * 2 ^ (size - 1) := by
    rw [← Nat.pow_succ']
    congr 1
    omega
  have htH : taps / 2 < 2 ^ (size - 1) := by omega
  obtain ⟨c, r, hc2, hr2, hsdecomp⟩ :
      ∃ c r, c < 2 ∧ r < 2 ^ (size - 1) ∧ s = c * 2 ^ (size - 1) + r := by
    refine ⟨s / 2 ^ (size - 1), s % 2 ^ (size - 1), ?_, ?_, ?_⟩
    · apply Nat.div_lt_of_lt_mul
      omega
    · exact Nat.mod_lt _ (Nat.pos_pow_of_pos _ (by omega))
    · rw [Nat.mul_comm]
      exact (Nat.div_add_mod s (2 ^ (size - 1))).symm
  have htaps2 : vrotate_right size taps = 1 * 2 ^ (size - 1) + taps / 2 := by
    unfold vrotate_right
    have h1 : taps &&& 1 = 1 := by
      rw [Nat.and_one_is_mod, ht]
    rw [h1, insert_msb_eq size taps 1 hN htlt (by omega)]
  set p2 := popCount (r &&& taps / 2) with hp2def
  have hpb : popCount (s &&& vrotate_right size taps) &&& 1 = (c + p2) % 2 := by
    rw [Nat.and_one_is_mod, htaps2]
    conv_lhs => rw [hsdecomp]
    rw [land_split (size - 1) c 1 r (taps / 2) hr2 htH,
      popCount_mul_pow_add (size - 1) (c &&& 1) _
        (Nat.lt_of_le_of_lt Nat.and_le_left hr2)]
    have hc1 : c &&& 1 = c := by
      rw [Nat.and_one_is_mod]
      omega
    rw [hc1, popCount_lt_two c hc2, ← hp2def]
  unfold lfsrPrev
  rw [hpb]
  set pb := (c + p2) % 2 with hpbdef
  have hpb2 : pb < 2 := by
    rw [hpbdef]
    omega
  have hsr : s % 2 ^ (size - 1) = r := by
    rw [hsdecomp, Nat.mul_comm, Nat.mul_add_mod, Nat.mod_eq_of_lt hr2]
  have hprev : insert_lsb size s pb = 2 * r + pb := by
    rw [insert_lsb_eq size s pb hN hpb2, hsr]
  rw [hprev]
  have hprevlt : 2 * r + pb < 2 ^ size := by omega
  unfold lfsrNext
  have hnb : popCount ((2 * r + pb) &&& taps) &&& 1 = c := by
    rw [Nat.and_one_is_mod]
    have hsplit : (2 * r + pb) &&& taps = r * 2 ^ 1 + pb &&& ((taps / 2) * 2 ^ 1 + 1) := by
      congr 1 <;> omega
    rw [hsplit, land_split 1 r (taps / 2) pb 1 (by omega) (by omega)]
    have hpb1 : pb &&& 1 = pb := by
      rw [Nat.and_one_is_mod]
      omega
    rw [hpb1, Nat.pow_one, Nat.mul_comm,
      popCount_two_mul_add _ _ hpb2, ← hp2def]
    omega
  rw [hnb, insert_msb_eq size (2 * r + pb) c hN hprevlt hc2]
  have hdd : (2 * r + pb) / 2 = r := by omega
  rw [hdd]
  omega

/-- C5: For every Fibonacci LFSR with a maximum-length tap set and every
nonzero `size`-bit state `s`, `previous_state` is the exact inverse of
`next_state`: `previous_state (next_state s) = s` and
`next_state (previous_state s) = s`.  The hypothesis `size ≤ 31` reflects
the `u32` code: `previous_state` evaluates `mask(size) = (1u32 << size) - 1`,
whose shift only executes for `size ≤ 31`. -/
theorem lfsr_previous_next_inverse (size taps s : Nat)
    (hml : IsMaxLength size taps) (hsize : size ≤ 31)
    (hpos : 0 < s) (hlt : s < 2 ^ size) :
    lfsrPrev size taps (lfsrNext size taps s) = s ∧
    lfsrNext size taps (lfsrPrev size taps s) = s := by
  have hN : 1 ≤ size := by
    by_contra hc
    have : size = 0 := by omega
    subst this
    simp at hlt
    omega
  have ht := maxLength_taps_odd size taps hml hN
  exact ⟨lfsrPrev_lfsrNext size taps s hN ht hml.1 hlt,
    lfsrNext_lfsrPrev size taps s hN ht hml.1 hlt⟩

set_option maxRecDepth 20000 in
/-- Witness for C5 at the 5-bit configuration from the repository's tests:
`size = 5`, `taps = 0b00101`, `s = 0b10101`. -/
theorem lfsr_previous_next_inverse_witness :
    IsMaxLength 5 0b00101 ∧ 5 ≤ 31 ∧ 0 < 0b10101 ∧ 0b10101 < 2 ^ 5 ∧
    (lfsrPrev 5 0b00101 (lfsrNext 5 0b00101 0b10101) = 0b10101 ∧
     lfsrNext 5 0b00101 (lfsrPrev 5 0b00101 0b10101) = 0b10101) :=
  ⟨by decide, by decide, by decide, by decide,
    lfsr_previous_next_inverse 5 0b00101 0b10101 (by decide) (by decide)
      (by decide) (by decide)⟩

/-! ## bitstream.rs -/

/-- Model of `Bitstream`.  The `HashMap<u32, u32>` lookup table is modelled as
a function `Nat → Option Nat` (`none` = key absent). -/
structure Bitstream where
  lookup_table : Nat → Option Nat
  size : Nat
  bitstream : Nat
  valid_bits : Nat

/-- The lookup-table construction loop of `Bitstream::new`: starting from an
LFSR in state `seed`, insert `(state, i)` for `i in 0..cap` and advance.
A later insert with an equal key overwrites an earlier one, exactly like
`HashMap::insert`.  Returns the final map together with the final LFSR state. -/
def mkLookup (size seed taps cap : Nat) : (Nat → Option Nat) × Nat :=
  (List.range cap).foldl
    (fun p i => (Function.update p.1 p.2 (some i), lfsrNext size taps p.2))
    (fun _ => none, seed)

/-- Source `Bitstream::new`: `capacity = 2^size - 1`; populate the lookup
table from the LFSR; fields `bitstream = seed`, `valid_bits = size`. -/
def Bitstream.new (size seed taps : Nat) : Bitstream :=
  { lookup_table := (mkLookup size seed taps (2 ^ size - 1)).1
    size := size
    bitstream := seed
    valid_bits := size }

/-- Source `Bitstream::is_valid`: `valid_bits >= size`. -/
def Bitstream.is_valid (b : Bitstream) : Bool := b.size ≤ b.valid_bits

/-- Source `Bitstream::position`: `None` if invalid, else the lookup-table
entry for the current window. -/
def Bitstream.position (b : Bitstream) : Option Nat :=
  if b.size ≤ b.valid_bits then b.lookup_table b.bitstream else none

/-- Source `Bitstream::process_bit`: insert the bit as MSB; if the positions
before and after are both defined and not consecutive, reset `valid_bits`
to 0; then increment `valid_bits`. -/
def Bitstream.process_bit (b : Bitstream) (bit : Nat) : Bitstream :=
  let prev := b.position
  let b1 : Bitstream := { b with bitstream := insert_msb b.size b.bitstream bit }
  let vb : Nat :=
    match prev, b1.position with
    | some p, some n => if p + 1 ≠ n then 0 else b.valid_bits
    | _, _ => b.valid_bits
  { b1 with valid_bits := vb + 1 }

/-- Source `Bitstream::process_bit_backward`: insert the bit as LSB; the
discontinuity condition is `prev != next + 1`. -/
def Bitstream.process_bit_backward (b : Bitstream) (bit : Nat) : Bitstream :=
  let prev := b.position
  let b1 : Bitstream := { b with bitstream := insert_lsb b.size b.bitstream bit }
  let vb : Nat :=
    match prev, b1.position with
    | some p, some n => if p ≠ n + 1 then 0 else b.valid_bits
    | _, _ => b.valid_bits
  { b1 with valid_bits := vb + 1 }

/-- Successive bitstream states of the `test_lookup_table` scenario. -/
def c4b0 : Bitstream := Bitstream.new 8 0b00000001 0b00011101

def c4b1 : Bitstream := c4b0.process_bit 1

def c4b2 : Bitstream := c4b1.process_bit 0

def c4b3 : Bitstream := c4b2.process_bit 0

def c4b4 : Bitstream := c4b3.process_bit 0

def c4b5 : Bitstream := c4b4.process_bit 0

def c4b6 : Bitstream := c4b5.process_bit 0

def c4b7 : Bitstream := c4b6.process_bit 1

def c4b8 : Bitstream := c4b7.process_bit 1

def c4b9 : Bitstream := c4b8.process_bit 0

def c4b10 : Bitstream := c4b9.process_bit 0

def c4b11 : Bitstream := c4b10.process_bit 1

def c4b12 : Bitstream := c4b11.process_bit 1

set_option maxRecDepth 100000 in
/-- C4: For `Bitstream::new(8, 0b00000001, 0b00011101)`, `position()` is
initially `Some 0`; after `process_bit 1, 0, 0, 0` it is `Some 1`, `Some 2`,
`Some 3`, `Some 4` in turn; an errant `process_bit 0` makes it `None`, and it
stays `None` while pushing the six bits `0, 1, 1, 0, 0, 1`; the following
`process_bit 1` restores validity with window `0b11001100` and position
`Some 182`. -/
theorem bitstream_lookup_scenario :
    c4b0.position = some 0 ∧
    c4b1.position = some 1 ∧
    c4b2.position = some 2 ∧
    c4b3.position = some 3 ∧
    c4b4.position = some 4 ∧
    c4b5.position = none ∧
    c4b6.position = none ∧
    c4b7.position = none ∧
    c4b8.position = none ∧
    c4b9.position = none ∧
    c4b10.position = none ∧
    c4b11.position = none ∧
    c4b12.bitstream = 0b11001100 ∧
    c4b12.position = some 182 := by
  decide

/-! ## util.rs -/

/-- Truncation toward zero of a rational (Rust f64 `trunc`). -/
def ratTrunc (q : ℚ) : Int := Int.tdiv q.num (Int.ofNat q.den)

/-- Rust `as i32` cast from f64: truncate toward zero, saturating at the
i32 range bounds. -/
def f64AsI32 (q : ℚ) : Int := max (-(2 ^ 31)) (min (2 ^ 31 - 1) (ratTrunc q))

/-- Model of `ExponentialWeightedMovingAverage` (util.rs); the f64 smoothing
factor is carried as an exact rational. -/
structure Ewma where
  last_output : Int
  smoothing_factor : ℚ

/-- Source `calculate_smoothing_factor`: `Δ_T = 1/f_s; α = Δ_T / (RC + Δ_T)`. -/
def calculateSmoothingFactor (time_constant sample_rate_hz : ℚ) : ℚ :=
  let sampling_period_secs := 1 / sample_rate_hz
  sampling_period_secs / (time_constant + sampling_period_secs)

/-- Source `ExponentialWeightedMovingAverage::new`: `last_output = 0`. -/
def Ewma.new (time_constant sample_rate_hz : ℚ) : Ewma :=
  { last_output := 0
    smoothing_factor := calculateSmoothingFactor time_constant sample_rate_hz }

/-- Source `difference_to`: `input - last_output`. -/
def Ewma.difference_to (e : Ewma) (input : Int) : Int := input - e.last_output

/-- Source `smoothen`:
`last_output + (smoothing_factor * difference_to(input) as f64) as i32`. -/
def Ewma.smoothen (e : Ewma) (input : Int) : Int :=
  e.last_output + f64AsI32 (e.smoothing_factor * ((e.difference_to input : Int) : ℚ))

/-- Source `process`: store the smoothed value. -/
def Ewma.process (e : Ewma) (input : Int) : Ewma :=
  { e with last_output := e.smoothen input }

/-! ## timecode.rs -/

inductive WaveCycleStatus where
  | Positive
  | Negative
  deriving DecidableEq

inductive TimecodeDirection where
  | Forwards
  | Backwards
  deriving DecidableEq

/-- `TIME_CONSTANT: f64 = 0.0001`, modelled as the exact rational 1/10000.
(The nearest f64 to 0.0001 differs from 1/10000 by < 2^-66 relatively; no
theorem below depends on the exact value.) -/
def TIME_CONSTANT : ℚ := 1 / 10000

/-- Source `sample_to_i32`: `(sample as i32) << 16`. -/
def sample_to_i32 (sample : Int) : Int := sample * 2 ^ 16

/-- Model of `TimecodeChannel`, including the cached per-sample fields the
source keeps in the struct. -/
structure TimecodeChannel where
  ewma : Ewma
  wave_cycle_status : WaveCycleStatus
  peak_threshold : Int
  crossed_zero : Bool
  sample : Int
  threshold : Int

/-- Source `TimecodeChannel::new` (`INITIAL_PEAK_THRESHOLD = 0`). -/
def TimecodeChannel.new (sample_rate_hz : ℚ) : TimecodeChannel :=
  { ewma := Ewma.new TIME_CONSTANT sample_rate_hz
    wave_cycle_status := WaveCycleStatus.Positive
    peak_threshold := 0
    crossed_zero := false
    sample := 0
    threshold := 0 }

/-- Source `has_crossed_zero`: compare the sample against the EWMA output
according to the current wave-cycle status. -/
def TimecodeChannel.has_crossed_zero (c : TimecodeChannel) (sample : Int) : Bool :=
  match c.wave_cycle_status with
  | WaveCycleStatus.Negative => decide (c.ewma.last_output < sample)
  | WaveCycleStatus.Positive => decide (sample < c.ewma.last_output)

/-- Source `process_sample`: detect a crossing, toggle the status on a
crossing, then update the EWMA; returns the updated channel and the flag. -/
def TimecodeChannel.process_sample (c : TimecodeChannel) (sample : Int) :
    TimecodeChannel × Bool :=
  let crossed := c.has_crossed_zero sample
  let status :=
    if crossed then
      match c.wave_cycle_status with
      | WaveCycleStatus.Negative => WaveCycleStatus.Positive
      | WaveCycleStatus.Positive => WaveCycleStatus.Negative
    else c.wave_cycle_status
  ({ c with
      crossed_zero := crossed
      wave_cycle_status := status
      ewma := c.ewma.process sample }, crossed)

/-- Source `bit_from_sample` (timecode.rs lines 86-91):
`self.sample = self.ewma.difference_to(sample).abs();
 self.peak_threshold = cmp::max(sample, self.peak_threshold);
 self.threshold = (f64::from(self.peak_threshold) * 0.9).trunc() as i32;
 self.sample > self.threshold`.
Note that the maximum is taken with the raw `sample` argument (not with the
stored absolute difference).  The f64 product `peak_threshold * 0.9` is
modelled as the exact rational product: for every |peak_threshold| ≤ 2^31
the exact product is either an integer that f64 represents exactly or lies
at least 1/10 from any integer, while the f64 rounding error is < 2^-20,
so the truncations agree. -/
def TimecodeChannel.bit_from_sample (c : TimecodeChannel) (sample : Int) :
    TimecodeChannel × Bool :=
  let s := |c.ewma.difference_to sample|
  let pt := max sample c.peak_threshold
  let th := f64AsI32 ((pt : ℚ) * (9 / 10))
  ({ c with sample := s, peak_threshold := pt, threshold := th },
    decide (th < s))

/-! ## pitch.rs -/

/-- Addition on the `Option ℚ` model of f64 (`none` = non-finite value,
which IEEE arithmetic propagates). -/
def oadd : Option ℚ → Option ℚ → Option ℚ
  | some a, some b => some (a + b)
  | _, _ => none

/-- Subtraction on the `Option ℚ` model of f64. -/
def osub : Option ℚ → Option ℚ → Option ℚ
  | some a, some b => some (a - b)
  | _, _ => none

/-- Division on the `Option ℚ` model of f64: a zero divisor produces a
non-finite IEEE result (in the code below it only arises as `0.0/0.0`,
i.e. NaN), modelled as `none`. -/
def odiv : Option ℚ → Option ℚ → Option ℚ
  | some a, some b => if b = 0 then none else some (a / b)
  | _, _ => none

/-- Model of `PitchDetector` (pitch.rs). -/
structure PitchDetector where
  samples_per_quarter_cycle : ℚ
  samples_since_last_quarter_cycle : Option ℚ
  last_primary_sample : Int
  last_secondary_sample : Int

/-- Source `PitchDetector::new`:
`samples_per_quarter_cycle = f_s / f_timecode / 4.0`,
`samples_since_last_quarter_cycle = 1.0`. -/
def PitchDetector.new (sample_rate_hz timecode_frequency_hz : ℚ) : PitchDetector :=
  { samples_per_quarter_cycle := sample_rate_hz / timecode_frequency_hz / 4
    samples_since_last_quarter_cycle := some 1
    last_primary_sample := 0
    last_secondary_sample := 0 }

/-- Source `PitchDetector::update`: remember the samples and count one more
sample since the last quarter cycle. -/
def PitchDetector.update (d : PitchDetector)
    (primary_sample secondary_sample : Int) : PitchDetector :=
  { d with
      last_primary_sample := primary_sample
      last_secondary_sample := secondary_sample
      samples_since_last_quarter_cycle :=
        oadd d.samples_since_last_quarter_cycle (some 1) }

/-- Source `PitchDetector::update_after_zero_crossing`:
`samples_since_zero_crossing = |b| / (|b| + |a|)` on the crossing channel,
`effective = samples_since_last_quarter_cycle + 1 - samples_since_zero_crossing`,
`pitch = samples_per_quarter_cycle / effective`; the fractional offset is
stored and the pitch returned.  There is no special case for a zero
divisor. -/
def PitchDetector.update_after_zero_crossing (d : PitchDetector)
    (primary_sample secondary_sample : Int) (primary_crossed_zero : Bool) :
    PitchDetector × Option ℚ :=
  let samples_since_zero_crossing : Option ℚ :=
    if primary_crossed_zero then
      odiv (some ((|primary_sample| : Int) : ℚ))
        (some (((|primary_sample| : Int) : ℚ) + ((|d.last_primary_sample| : Int) : ℚ)))
    else
      odiv (some ((|secondary_sample| : Int) : ℚ))
        (some (((|secondary_sample| : Int) : ℚ) + ((|d.last_secondary_sample| : Int) : ℚ)))
  let samples_since_last_quarter_cycle :=
    osub (oadd d.samples_since_last_quarter_cycle (some 1)) samples_since_zero_crossing
  let pitch := odiv (some d.samples_per_quarter_cycle) samples_since_last_quarter_cycle
  ({ d with samples_since_last_quarter_cycle := samples_since_zero_crossing }, pitch)

/-! ## format.rs -/

/-- Model of `TimecodeFormat`. -/
structure TimecodeFormat where
  size : Nat
  seed : Nat
  taps : Nat
  signal_frequency_hz : ℚ

/-- The Serato Control CD 1.0.0 format constant. -/
def SERATO_CONTROL_CD_1_0_0 : TimecodeFormat :=
  { size := 20
    seed := 0b10010001010010101011
    taps := 0b00110100110101010101
    signal_frequency_hz := 1000 }

/-! ## timecode.rs: the Timecode state machine -/

/-- Model of `Timecode`, including the cached per-sample fields. -/
structure Timecode where
  bitstream : Bitstream
  primary_channel : TimecodeChannel
  secondary_channel : TimecodeChannel
  direction : TimecodeDirection
  pitch : PitchDetector
  primary_crossed_zero : Bool
  secondary_crossed_zero : Bool
  primary_sample : Int
  secondary_sample : Int
  bit : Bool

/-- Source `Timecode::new`. -/
def Timecode.new (format : TimecodeFormat) (sample_rate_hz : ℚ) : Timecode :=
  { bitstream := Bitstream.new format.size format.seed format.taps
    primary_channel := TimecodeChannel.new sample_rate_hz
    secondary_channel := TimecodeChannel.new sample_rate_hz
    direction := TimecodeDirection.Forwards
    pitch := PitchDetector.new sample_rate_hz format.signal_frequency_hz
    primary_crossed_zero := false
    secondary_crossed_zero := false
    primary_sample := 0
    secondary_sample := 0
    bit := false }

/-- Source `Timecode::process_channels` (timecode.rs lines 145-263),
step for step: promote the i16 samples, run both channels, update the
direction (note the `else if`: when both channels cross zero in the same
call only the primary branch runs), update the pitch, and emit a bit when
the secondary channel crossed zero while the primary wave is positive. -/
def Timecode.process_channels (t : Timecode)
    (primary_sample secondary_sample : Int) :
    Timecode × Option (Bool × Option Nat) :=
  let ps := sample_to_i32 primary_sample
  let ss := sample_to_i32 secondary_sample
  let pres := t.primary_channel.process_sample ps
  let sres := t.secondary_channel.process_sample ss
  let pc := pres.1
  let pz := pres.2
  let sc := sres.1
  let sz := sres.2
  let dir :=
    if pz then
      if pc.wave_cycle_status = sc.wave_cycle_status then
        TimecodeDirection.Forwards
      else TimecodeDirection.Backwards
    else if sz then
      if pc.wave_cycle_status ≠ sc.wave_cycle_status then
        TimecodeDirection.Forwards
      else TimecodeDirection.Backwards
    else t.direction
  let pitch2 :=
    if pz || sz then (t.pitch.update_after_zero_crossing ps ss pz).1
    else t.pitch.update ps ss
  if sz ∧ pc.wave_cycle_status = WaveCycleStatus.Positive then
    let bres := pc.bit_from_sample ps
    let bs2 :=
      if dir = TimecodeDirection.Forwards then
        t.bitstream.process_bit (if bres.2 then 1 else 0)
      else
        t.bitstream.process_bit_backward (if bres.2 then 1 else 0)
    ({ t with
        bitstream := bs2
        primary_channel := bres.1
        secondary_channel := sc
        direction := dir
        pitch := pitch2
        primary_crossed_zero := pz
        secondary_crossed_zero := sz
        primary_sample := ps
        secondary_sample := ss
        bit := bres.2 }, some (bres.2, bs2.position))
  else
    ({ t with
        primary_channel := pc
        secondary_channel := sc
        direction := dir
        pitch := pitch2
        primary_crossed_zero := pz
        secondary_crossed_zero := sz
        primary_sample := ps
        secondary_sample := ss }, none)

/-! ## Construction with its failure condition (C6) -/

/-- `Bitstream::new` wrapped with its failure condition made explicit: the
loop bound `2u32.pow(size as u32)` overflows `u32` (and aborts under Rust
debug overflow checking) exactly when `size ≥ 32`; no other parameter is
inspected.  `none` models the abort. -/
def Bitstream.newChecked (size seed taps : Nat) : Option Bitstream :=
  if 32 ≤ size then none else some (Bitstream.new size seed taps)

/-- `Timecode::new` with the same failure condition: it builds its
`Bitstream` from the format fields and performs no validation of its own. -/
def Timecode.newChecked (format : TimecodeFormat) (sample_rate_hz : ℚ) :
    Option Timecode :=
  (Bitstream.newChecked format.size format.seed format.taps).map
    (fun bs => { Timecode.new format sample_rate_hz with bitstream := bs })

/-- C6 counterexample: a `Timecode` (and its `Bitstream`) is constructed
normally with seed 0 and taps 0 (size 8 in range), and a `Bitstream` is
constructed normally with size 0 (outside 2..=31): none of these
parameters is rejected. -/
theorem construction_accepts_invalid_parameters :
    (Timecode.newChecked
        { size := 8, seed := 0, taps := 0, signal_frequency_hz := 1000 }
        44100).isSome = true ∧
    (Bitstream.newChecked 0 1 1).isSome = true ∧
    (Bitstream.newChecked 8 0 0).isSome = true := by
  refine ⟨rfl, rfl, rfl⟩

/-- C6 amended: construction of a `Timecode` and of its `Bitstream` checks
nothing but the size: it fails loudly (u32 overflow of `2^size`, a panic
under debug overflow checking) if and only if `size ≥ 32`; zero seeds,
zero taps, and the out-of-range sizes 0 and 1 are accepted silently. -/
theorem construction_fails_iff_size_ge_32 (size seed taps : Nat) (fhz fs : ℚ) :
    ((Timecode.newChecked
        { size := size, seed := seed, taps := taps, signal_frequency_hz := fhz }
        fs).isSome ↔ size < 32) ∧
    ((Bitstream.newChecked size seed taps).isSome ↔ size < 32) := by
  unfold Timecode.newChecked Bitstream.newChecked
  by_cases h : 32 ≤ size
  · simp [h]
  · simp [h]
    omega

/-! ## Peak threshold (C3, C10) -/

/-- C10: `peak_threshold` never decreases across a call to
`bit_from_sample`, whatever the channel state and the input sample: the
update is `max(sample, peak_threshold)`, a ratchet with no decay. -/
theorem peak_threshold_monotone (c : TimecodeChannel) (x : Int) :
    c.peak_threshold ≤ (c.bit_from_sample x).1.peak_threshold :=
  le_max_right x c.peak_threshold

/-- C3, evaluated at the failing input: for a channel in its initial state
(`ewma.last_output = 0`, `peak_threshold = 0`) and sample −4, the code
leaves `peak_threshold` at 0 (it maximises with the raw sample −4), whereas
the claimed update `max(peak_threshold, |ewma.difference_to(sample)|)`
would give 4. -/
theorem bit_from_sample_peak_uses_raw_sample :
    ((TimecodeChannel.new 44100).bit_from_sample (-4)).1.peak_threshold = 0 ∧
    max (TimecodeChannel.new 44100).peak_threshold
        |(TimecodeChannel.new 44100).ewma.difference_to (-4)| = 4 ∧
    (0 : Int) ≠ 4 := by
  refine ⟨by decide, by decide, by decide⟩

/-! ## Direction detection (C2) -/

/-- A small test format (the 4-bit maximum-length polynomial x^4 + x^3 + 1
from the repository's LFSR tests), used for concrete instances. -/
def testFormat : TimecodeFormat :=
  { size := 4, seed := 1, taps := 0b0011, signal_frequency_hz := 1000 }

/-- The direction rule claimed in C2 (the secondary-crossing branch):
Forwards iff the two toggled wave-cycle statuses differ. -/
def secondaryRuleDirection (t : Timecode) : TimecodeDirection :=
  if t.primary_channel.wave_cycle_status ≠ t.secondary_channel.wave_cycle_status
  then TimecodeDirection.Forwards
  else TimecodeDirection.Backwards

/-- C2 counterexample: in a fresh `Timecode` fed the sample pair (−1, −1),
both channels cross zero in the same call, yet the direction is set to
`Forwards` by the primary branch (the `else if` never reaches the secondary
branch), while the claimed secondary-crossing rule would give `Backwards`. -/
theorem direction_both_crossed_counterexample :
    ((Timecode.new testFormat 44100).process_channels (-1) (-1)).1.primary_crossed_zero
      = true ∧
    ((Timecode.new testFormat 44100).process_channels (-1) (-1)).1.secondary_crossed_zero
      = true ∧
    ((Timecode.new testFormat 44100).process_channels (-1) (-1)).1.direction
      = TimecodeDirection.Forwards ∧
    secondaryRuleDirection ((Timecode.new testFormat 44100).process_channels (-1) (-1)).1
      = TimecodeDirection.Backwards := by
  refine ⟨by decide, by decide, by decide, by decide⟩

/-- C2 amended: when both the primary and the secondary channel cross zero
in the same call to `process_channels`, the direction is set by the
primary-crossing branch (the `else if` skips the secondary branch):
Forwards iff the two toggled wave-cycle statuses are equal, else
Backwards. -/
theorem direction_both_crossed_primary_rule (t : Timecode) (p s : Int)
    (hpz : (t.primary_channel.process_sample (sample_to_i32 p)).2 = true)
    (hsz : (t.secondary_channel.process_sample (sample_to_i32 s)).2 = true) :
    (t.process_channels p s).1.direction =
      if (t.primary_channel.process_sample (sample_to_i32 p)).1.wave_cycle_status =
          (t.secondary_channel.process_sample (sample_to_i32 s)).1.wave_cycle_status
      then TimecodeDirection.Forwards
      else TimecodeDirection.Backwards := by
  unfold Timecode.process_channels
  simp only [hpz, hsz, if_true]
  split <;> rfl

/-- Witness for C2 at a fresh `Timecode` over the test format with the
sample pair (−1, −1), where both channels cross zero. -/
theorem direction_both_crossed_primary_rule_witness :
    ((Timecode.new testFormat 44100).primary_channel.process_sample
        (sample_to_i32 (-1))).2 = true ∧
    ((Timecode.new testFormat 44100).secondary_channel.process_sample
        (sample_to_i32 (-1))).2 = true ∧
    ((Timecode.new testFormat 44100).process_channels (-1) (-1)).1.direction =
      (if ((Timecode.new testFormat 44100).primary_channel.process_sample
            (sample_to_i32 (-1))).1.wave_cycle_status =
          ((Timecode.new testFormat 44100).secondary_channel.process_sample
            (sample_to_i32 (-1))).1.wave_cycle_status
       then TimecodeDirection.Forwards
       else TimecodeDirection.Backwards) :=
  ⟨by decide, by decide,
    direction_both_crossed_primary_rule (Timecode.new testFormat 44100) (-1) (-1)
      (by decide) (by decide)⟩

/-! ## Pitch detector division by zero (C7) -/

/-- C7 counterexample: a fresh detector (remembered samples are 0) crossing
with current primary sample 0 divides by the zero sum `|b| + |a|`: the
fractional offset is NaN (`none`), not 0.5, and the returned pitch is NaN
(`none`), not a well-defined value. -/
theorem pitch_zero_divisor_counterexample :
    ((PitchDetector.new 44100 1000).update_after_zero_crossing 0 0 true).2 = none ∧
    ((PitchDetector.new 44100 1000).update_after_zero_crossing 0 0
        true).1.samples_since_last_quarter_cycle = none := by
  unfold PitchDetector.update_after_zero_crossing PitchDetector.new
  norm_num [odiv, oadd, osub]

/-- C7 amended: in `update_after_zero_crossing`, whichever channel crossed,
when that channel's current sample and remembered previous sample are both
zero, the divisor `|b| + |a|` is zero and the IEEE quotient `0.0/0.0` is
NaN: the fractional offset becomes NaN (`none`) — there is no 0.5
fallback — and the returned pitch is NaN (`none`), not a well-defined
value.  The two disjuncts are the primary-crossing branch and the
secondary-crossing branch of the source. -/
theorem pitch_zero_divisor_nan (d : PitchDetector) (p s : Int)
    (primary_crossed_zero : Bool)
    (hzero : (primary_crossed_zero = true ∧ p = 0 ∧ d.last_primary_sample = 0) ∨
      (primary_crossed_zero = false ∧ s = 0 ∧ d.last_secondary_sample = 0)) :
    (d.update_after_zero_crossing p s primary_crossed_zero).2 = none ∧
    (d.update_after_zero_crossing p s
        primary_crossed_zero).1.samples_since_last_quarter_cycle = none := by
  obtain ⟨spqc, ssl, lp, ls⟩ := d
  rcases hzero with ⟨hpc, hp, hlast⟩ | ⟨hpc, hs, hlast⟩
  · simp only at hlast
    subst hpc
    subst hp
    subst hlast
    unfold PitchDetector.update_after_zero_crossing
    cases ssl <;> norm_num [odiv, oadd, osub]
  · simp only at hlast
    subst hpc
    subst hs
    subst hlast
    unfold PitchDetector.update_after_zero_crossing
    cases ssl <;> norm_num [odiv, oadd, osub]

/-- Witness for C7 at a fresh detector for 44100 Hz / 1000 Hz, exercising
the secondary-crossing branch: primary sample 7, secondary sample 0,
`primary_crossed_zero = false`. -/
theorem pitch_zero_divisor_nan_witness :
    ((false = true ∧ (7 : Int) = 0 ∧
        (PitchDetector.new 44100 1000).last_primary_sample = 0) ∨
     (false = false ∧ (0 : Int) = 0 ∧
        (PitchDetector.new 44100 1000).last_secondary_sample = 0)) ∧
    (((PitchDetector.new 44100 1000).update_after_zero_crossing 7 0 false).2 = none ∧
     ((PitchDetector.new 44100 1000).update_after_zero_crossing 7 0
         false).1.samples_since_last_quarter_cycle = none) :=
  ⟨Or.inr ⟨rfl, rfl, rfl⟩,
    pitch_zero_divisor_nan (PitchDetector.new 44100 1000) 7 0 false
      (Or.inr ⟨rfl, rfl, rfl⟩)⟩

/-! ## Silence produces no bit events (C8) -/

/-- Feed `n` all-zero sample pairs into a timecode. -/
def feedZeros (t : Timecode) : Nat → Timecode
  | 0 => t
  | n + 1 => ((feedZeros t n).process_channels 0 0).1

theorem process_zero_fresh_channels (t : Timecode) (fs : ℚ)
    (hp : t.primary_channel = TimecodeChannel.new fs)
    (hs : t.secondary_channel = TimecodeChannel.new fs) :
    (t.process_channels 0 0).2 = none ∧
    (t.process_channels 0 0).1.primary_channel = TimecodeChannel.new fs ∧
    (t.process_channels 0 0).1.secondary_channel = TimecodeChannel.new fs := by
  have hsample : sample_to_i32 0 = 0 := by
    unfold sample_to_i32
    ring
  have hchan : (TimecodeChannel.new fs).process_sample 0 =
      (TimecodeChannel.new fs, false) := by
    unfold TimecodeChannel.process_sample TimecodeChannel.has_crossed_zero
      TimecodeChannel.new Ewma.process Ewma.smoothen Ewma.difference_to Ewma.new
    norm_num [f64AsI32, ratTrunc]
  unfold Timecode.process_channels
  rw [hp, hs, hsample]
  simp [hchan]

/-- C8: for a freshly constructed `Timecode` (any format and sample rate),
every call in a run of all-zero sample pairs returns `None` — silence
produces no bit events at any step.  (The model is a total function, so it
also cannot panic.) -/
theorem silence_yields_no_events (format : TimecodeFormat) (fs : ℚ) (n : Nat) :
    ((feedZeros (Timecode.new format fs) n).process_channels 0 0).2 = none := by
  have hinv : ∀ m,
      (feedZeros (Timecode.new format fs) m).primary_channel
          = TimecodeChannel.new fs ∧
      (feedZeros (Timecode.new format fs) m).secondary_channel
          = TimecodeChannel.new fs := by
    intro m
    induction m with
    | zero => exact ⟨rfl, rfl⟩
    | succ k ih =>
      have hstep := process_zero_fresh_channels _ fs ih.1 ih.2
      exact ⟨hstep.2.1, hstep.2.2⟩
  exact (process_zero_fresh_channels _ fs (hinv n).1 (hinv n).2).1

/-! ## Bitstream wrap-around invalidation (C9) -/

theorem mkLookup_snd (size seed taps : Nat) :
    ∀ c, (mkLookup size seed taps c).2 = (lfsrNext size taps)^[c] seed := by
  intro c
  induction c with
  | zero => rfl
  | succ c ih =>
    unfold mkLookup at ih ⊢
    rw [List.range_succ, List.foldl_append]
    simp only [List.foldl_cons, List.foldl_nil]
    rw [ih, Function.iterate_succ_apply']

theorem mkLookup_fst (size seed taps : Nat) :
    ∀ c, (∀ i j, i < c → j < c →
        (lfsrNext size taps)^[i] seed = (lfsrNext size taps)^[j] seed → i = j) →
      ∀ j, j < c →
        (mkLookup size seed taps c).1 ((lfsrNext size taps)^[j] seed) = some j := by
  intro c
  induction c with
  | zero =>
    intro _ j hj
    omega
  | succ c ih =>
    intro hinj j hj
    have hsnd := mkLookup_snd size seed taps c
    have hstep : (mkLookup size seed taps (c + 1)).1 =
        Function.update (mkLookup size seed taps c).1
          ((lfsrNext size taps)^[c] seed) (some c) := by
      unfold mkLookup
      rw [List.range_succ, List.foldl_append, List.foldl_cons, List.foldl_nil]
      unfold mkLookup at hsnd
      rw [hsnd]
    rw [hstep]
    rcases Nat.lt_or_ge j c with hjc | hjc
    · have hne : (lfsrNext size taps)^[j] seed ≠ (lfsrNext size taps)^[c] seed := by
        intro heq
        have := hinj j c (by omega) (by omega) heq
        omega
      rw [Function.update_noteq hne]
      exact ih (fun i j hi hj heq => hinj i j (by omega) (by omega) heq) j hjc
    · have hjeq : j = c := by omega
      subst hjeq
      rw [Function.update_same]

theorem maxLength_state_bound (size taps seed : Nat) (hN : 1 ≤ size)
    (hlt : seed < 2 ^ size) :
    ∀ i, (lfsrNext size taps)^[i] seed < 2 ^ size := by
  intro i
  induction i with
  | zero => exact hlt
  | succ i ih =>
    rw [Function.iterate_succ_apply']
    exact lfsrNext_lt size taps _ hN ih

theorem maxLength_state_pos (size taps seed : Nat) (hml : IsMaxLength size taps)
    (hseed : 0 < seed) (hlt : seed < 2 ^ size) :
    ∀ i, i ≤ 2 ^ size - 1 → 0 < (lfsrNext size taps)^[i] seed := by
  intro i hi
  by_contra hzero
  have hz : (lfsrNext size taps)^[i] seed = 0 := by omega
  have hcap : (lfsrNext size taps)^[2 ^ size - 1] seed = seed :=
    (hml.2 seed hlt hseed).1
  have hsplit : (lfsrNext size taps)^[2 ^ size - 1] seed =
      (lfsrNext size taps)^[2 ^ size - 1 - i] ((lfsrNext size taps)^[i] seed) := by
    rw [← Function.iterate_add_apply]
    congr 1
    omega
  rw [hsplit, hz, Function.iterate_fixed (lfsrNext_zero size taps)] at hcap
  omega

theorem maxLength_states_inj (size taps seed : Nat) (hml : IsMaxLength size taps)
    (hseed : 0 < seed) (hlt : seed < 2 ^ size) :
    ∀ i j, i < 2 ^ size - 1 → j < 2 ^ size - 1 →
      (lfsrNext size taps)^[i] seed = (lfsrNext size taps)^[j] seed → i = j := by
  have hN : 1 ≤ size := by
    by_contra hc
    have : size = 0 := by omega
    subst this
    simp at hlt
    omega
  have key : ∀ i j, i < j → j < 2 ^ size - 1 →
      (lfsrNext size taps)^[i] seed ≠ (lfsrNext size taps)^[j] seed := by
    intro i j hij hj heq
    have hpos := maxLength_state_pos size taps seed hml hseed hlt i (by omega)
    have hbound := maxLength_state_bound size taps seed hN hlt i
    have hne := (hml.2 _ hbound hpos).2 (j - i) (by omega) (by omega)
    apply hne
    rw [← Function.iterate_add_apply]
    have : j - i + i = j := by omega
    rw [this, ← heq]
  intro i j hi hj heq
  rcases Nat.lt_trichotomy i j with h | h | h
  · exact absurd heq (key i j h hj)
  · exact h
  · exact absurd heq.symm (key j i h hi)

theorem process_bits_invalid (bits : List Nat) : ∀ b : Bitstream,
    b.valid_bits + bits.length < b.size →
    (bits.foldl Bitstream.process_bit b).position = none := by
  induction bits with
  | nil =>
    intro b hb
    rw [List.foldl_nil]
    unfold Bitstream.position
    rw [if_neg (by simp at hb; omega : ¬ b.size ≤ b.valid_bits)]
  | cons bit rest ih =>
    intro b hb
    have hinvalid : b.position = none := by
      unfold Bitstream.position
      rw [if_neg]
      simp at hb
      omega
    have hstep : (b.process_bit bit).size = b.size ∧
        (b.process_bit bit).valid_bits = b.valid_bits + 1 := by
      unfold Bitstream.process_bit
      rw [hinvalid]
      exact ⟨rfl, rfl⟩
    rw [List.foldl_cons]
    apply ih
    rw [hstep.1, hstep.2]
    simp at hb
    omega

theorem position_of_valid (b : Bitstream) (h : b.size ≤ b.valid_bits) :
    b.position = b.lookup_table b.bitstream := by
  unfold Bitstream.position
  exact if_pos h

theorem process_bit_reset (b : Bitstream) (bit p n : Nat)
    (hp : b.position = some p)
    (hn : ({ b with bitstream := insert_msb b.size b.bitstream bit } :
        Bitstream).position = some n)
    (hne : p + 1 ≠ n) :
    b.process_bit bit =
      { b with bitstream := insert_msb b.size b.bitstream bit, valid_bits := 1 } := by
  unfold Bitstream.process_bit
  simp only [hp, hn]
  rw [if_pos hne]

/-- C9: even on a perfectly correct bit sequence the bitstream loses
validity once per LFSR period.  For a maximum-length `(size, seed, taps)`
with `2 ≤ size` (and `size ≤ 31` so that `2^size` fits in `u32`), take a
bitstream built by `Bitstream::new` whose window holds the last state of
the sequence (lookup position `2^size - 2`) with `valid_bits ≥ size`, so
that `position()` is defined.  Feeding the bit that continues the LFSR
sequence makes the window equal `seed`, whose lookup position is 0; since
`0 ≠ (2^size - 2) + 1` the validity counter is reset to 0 and then
incremented to 1, so `position()` returns `none` right after that call and
after each of the next `size - 2` bits, whatever they are: `size - 1`
`none` readings in total. -/
theorem bitstream_wraparound_invalidation (size seed taps v : Nat)
    (hml : IsMaxLength size taps) (hs2 : 2 ≤ size) (_hs31 : size ≤ 31)
    (hseed : 0 < seed) (hslt : seed < 2 ^ size) (hv : size ≤ v) :
    let b0 := Bitstream.new size seed taps
    let w := (lfsrNext size taps)^[2 ^ size - 2] seed
    let b : Bitstream := { b0 with bitstream := w, valid_bits := v }
    let b2 := b.process_bit (popCount (w &&& taps) &&& 1)
    b.position = some (2 ^ size - 2) ∧
    b0.lookup_table seed = some 0 ∧
    b2.bitstream = seed ∧
    b2.valid_bits = 1 ∧
    ∀ bits : List Nat, bits.length ≤ size - 2 →
      (bits.foldl Bitstream.process_bit b2).position = none := by
  intro b0 w b b2
  have h4 : 4 ≤ 2 ^ size := by
    calc (4 : Nat) = 2 ^ 2 := by norm_num
      _ ≤ 2 ^ size := Nat.pow_le_pow_right (by omega) hs2
  have hinj := maxLength_states_inj size taps seed hml hseed hslt
  have hlook : b0.lookup_table = (mkLookup size seed taps (2 ^ size - 1)).1 := rfl
  have hlw : b0.lookup_table w = some (2 ^ size - 2) := by
    rw [hlook]
    exact mkLookup_fst size seed taps (2 ^ size - 1) hinj (2 ^ size - 2) (by omega)
  have hls : b0.lookup_table seed = some 0 := by
    rw [hlook]
    have h0 := mkLookup_fst size seed taps (2 ^ size - 1) hinj 0 (by omega)
    rw [Function.iterate_zero_apply] at h0
    exact h0
  have hwseed : lfsrNext size taps w = seed := by
    have hstep : lfsrNext size taps w = (lfsrNext size taps)^[2 ^ size - 2 + 1] seed := by
      rw [Function.iterate_succ_apply']
    rw [hstep, show 2 ^ size - 2 + 1 = 2 ^ size - 1 by omega]
    exact (hml.2 seed hslt hseed).1
  have hbpos : b.position = some (2 ^ size - 2) := by
    rw [position_of_valid b hv]
    exact hlw
  have hwindow : insert_msb b.size b.bitstream (popCount (w &&& taps) &&& 1) = seed := by
    show insert_msb size w (popCount (w &&& taps) &&& 1) = seed
    exact hwseed
  have hb1pos : ({ b with
      bitstream := insert_msb b.size b.bitstream (popCount (w &&& taps) &&& 1) } :
        Bitstream).position = some 0 := by
    rw [position_of_valid _ hv]
    show b0.lookup_table (insert_msb b.size b.bitstream (popCount (w &&& taps) &&& 1))
      = some 0
    rw [hwindow]
    exact hls
  have hreset := process_bit_reset b (popCount (w &&& taps) &&& 1)
    (2 ^ size - 2) 0 hbpos hb1pos (by omega)
  have hb2 : b2 = { b with
      bitstream := insert_msb b.size b.bitstream (popCount (w &&& taps) &&& 1),
      valid_bits := 1 } := hreset
  refine ⟨hbpos, hls, ?_, ?_, ?_⟩
  · rw [hb2]
    exact hwindow
  · rw [hb2]
  · intro bits hlen
    apply process_bits_invalid
    rw [hb2]
    show 1 + bits.length < size
    omega

/-- Witness for C9 at the 2-bit maximum-length configuration
`(size 2, seed 1, taps 0b11)` with `valid_bits = 2`. -/
theorem bitstream_wraparound_invalidation_witness :
    IsMaxLength 2 3 ∧ 2 ≤ 2 ∧ 2 ≤ 31 ∧ 0 < 1 ∧ 1 < 2 ^ 2 ∧ 2 ≤ 2 ∧
    (let b0 := Bitstream.new 2 1 3
     let w := (lfsrNext 2 3)^[2 ^ 2 - 2] 1
     let b : Bitstream := { b0 with bitstream := w, valid_bits := 2 }
     let b2 := b.process_bit (popCount (w &&& 3) &&& 1)
     b.position = some (2 ^ 2 - 2) ∧
     b0.lookup_table 1 = some 0 ∧
     b2.bitstream = 1 ∧
     b2.valid_bits = 1 ∧
     ∀ bits : List Nat, bits.length ≤ 2 - 2 →
       (bits.foldl Bitstream.process_bit b2).position = none) :=
  ⟨by decide, by decide, by decide, by decide, by decide, by decide,
    bitstream_wraparound_invalidation 2 1 3 2 (by decide) (by decide) (by decide)
      (by decide) (by decide) (by decide)⟩
